import Mathlib

/-!
Verification of the document-pool and text-geometry core of the Ferrous
reader backend (`src/rust/src/api/pdf.rs` and `src/rust/src/api/tts_text.rs`).

Strings are embedded as `List Char` (Rust iterates over Unicode scalar
values; `char` maps to `Char`).  The pdfium engine is embedded as plain
data: a page carries its content-space geometry and its text-layer
characters; engine calls that cannot fail for in-range indices are total.
Floating-point page arithmetic is embedded over `ℚ`; the claims proved
about it (clamping, ordering, lengths, emptiness) depend only on the
ordered-field operations, which `f32` and `ℚ` share on these code paths.
-/

namespace Ferrous

/-! ## Whitespace and text normalization (`tts_text.rs`, `normalize_text`) -/

/-- Rust `char::is_whitespace`: the Unicode `White_Space` property.  This is
also the character class matched by `\s` in the Rust `regex` crate, which the
source uses for collapsing (`WHITESPACE_REGEX = \s+`). -/
def isRustWhitespace (c : Char) : Bool :=
  let n := c.toNat
  (0x9 ≤ n && n ≤ 0xD) || n == 0x20 || n == 0x85 || n == 0xA0 || n == 0x1680 ||
  (0x2000 ≤ n && n ≤ 0x200A) || n == 0x2028 || n == 0x2029 || n == 0x202F ||
  n == 0x205F || n == 0x3000

/-- The non-breaking space U+00A0 (`'\u{00A0}'` in the source). -/
def nbspChar : Char := Char.ofNat 0xA0

/-- The zero-width space U+200B (`'\u{200B}'` in the source). -/
def zwspChar : Char := Char.ofNat 0x200B

/-- Rust `str::trim`: drop leading and trailing `White_Space` characters. -/
def trimList (l : List Char) : List Char :=
  ((l.dropWhile isRustWhitespace).reverse.dropWhile isRustWhitespace).reverse

/-- Worker for whitespace-run collapsing.  The flag records whether the
previous character belonged to a whitespace run whose single replacement
space has already been emitted. -/
def collapseAux : Bool → List Char → List Char
  | _, [] => []
  | inRun, c :: rest =>
    if isRustWhitespace c then
      if inRun then collapseAux true rest
      else ' ' :: collapseAux true rest
    else c :: collapseAux false rest

/-- `Regex::new(r"\s+")` + `replace_all(_, " ")`: replace every maximal run
of whitespace characters by a single ASCII space. -/
def collapseWhitespace (l : List Char) : List Char :=
  collapseAux false l

/-- `normalize_text` from `tts_text.rs`:
`regex.replace_all(text.trim(), " ").replace('\u{00A0}', " ").replace('\u{200B}', "").to_string()`. -/
def normalize_text (text : List Char) : List Char :=
  (((collapseWhitespace (trimList text)).map
      (fun c => if c = nbspChar then ' ' else c)).filter
    (fun c => c ≠ zwspChar))

/-! ## Unicode segmentation model

The source delegates boundary detection to the `unicode-segmentation`
crate (`split_word_bounds`, `split_sentence_bounds`), which implements
UAX #29.  The crate is an external dependency, so it is embedded here by
its documented behaviour, restricted to the character repertoire the
claims exercise (ASCII alphanumerics, spaces, terminal punctuation):

* word boundaries: a maximal run of alphanumeric characters is one
  segment (WB5/WB8), a maximal run of spaces is one segment (WB3d),
  every other character is its own segment (WB999);
* sentence boundaries: a break occurs after a run of terminators
  (`.`/`!`/`?`) and any following spaces, unless the next character is a
  lowercase letter (SB8); trailing spaces attach to the preceding
  sentence.

Both functions partition their input; the span-invariant proofs below
rely only on that partition property, not on boundary placement. -/

/-- UAX29 `ALetter`/`Numeric` classes restricted to ASCII. -/
def isWordChar (c : Char) : Bool := c.isAlphanum

/-- Model of `UnicodeSegmentation::split_word_bounds`. -/
def splitWordBounds : List Char → List (List Char)
  | [] => []
  | [c] => [[c]]
  | c :: d :: rest =>
    match splitWordBounds (d :: rest) with
    | [] => [[c]]
    | s :: ss =>
      if (isWordChar c && isWordChar d) || (c = ' ' && d = ' ') then
        (c :: s) :: ss
      else
        [c] :: s :: ss

/-- UAX29 `STerm`/`ATerm` restricted to ASCII. -/
def isSentenceTerminator (c : Char) : Bool := c == '.' || c == '!' || c == '?'

/-- Worker for the sentence segmenter: `acc` is the reversed current
sentence, the flag records whether a pending break opportunity (a
terminator possibly followed by spaces) has been seen. -/
def splitSentenceAux : List Char → Bool → List Char → List (List Char)
  | acc, _, [] => if acc.isEmpty then [] else [acc.reverse]
  | acc, seen, c :: rest =>
    if seen then
      if isSentenceTerminator c || c = ' ' then
        splitSentenceAux (c :: acc) true rest
      else if c.isLower then
        splitSentenceAux (c :: acc) false rest
      else
        acc.reverse :: splitSentenceAux [c] (isSentenceTerminator c) rest
    else
      splitSentenceAux (c :: acc) (isSentenceTerminator c) rest

/-- Model of `UnicodeSegmentation::split_sentence_bounds`. -/
def splitSentenceBounds (l : List Char) : List (List Char) :=
  splitSentenceAux [] false l

/-! ## Highlight spans (`tts_text.rs`) -/

/-- `WordSpan` (the Rust field `end` is called `stop` here: `end` is a Lean
keyword). -/
structure WordSpan where
  start : Nat
  stop : Nat
  text : List Char
  deriving Repr, DecidableEq

/-- `SentenceSpan` (field `end` renamed to `stop`). -/
structure SentenceSpan where
  start : Nat
  stop : Nat
  deriving Repr, DecidableEq

/-- `TextHighlightData`. -/
structure TextHighlightData where
  words : List WordSpan
  sentences : List SentenceSpan
  normalized_text : List Char
  deriving Repr, DecidableEq

/-- The word loop of `precompute_text_highlights`: walk the word segments
keeping a running scalar-value offset; push a span for every segment that is
not pure whitespace. -/
def wordSpansAux : Nat → List (List Char) → List WordSpan
  | _, [] => []
  | offset, w :: rest =>
    (if (trimList w).isEmpty then [] else
      [⟨offset, offset + w.length, w⟩]) ++ wordSpansAux (offset + w.length) rest

/-- The sentence loop of `precompute_text_highlights`: for every segment
that is non-empty after trimming, subtract the leading/trailing whitespace
character counts from the raw segment boundaries. -/
def sentenceSpansAux : Nat → List (List Char) → List SentenceSpan
  | _, [] => []
  | offset, s :: rest =>
    (if (trimList s).isEmpty then [] else
      let leading := (s.takeWhile isRustWhitespace).length
      let trailing := (s.reverse.takeWhile isRustWhitespace).length
      [⟨offset + leading, offset + s.length - trailing⟩]) ++
    sentenceSpansAux (offset + s.length) rest

/-- `precompute_text_highlights` from `tts_text.rs`. -/
def precompute_text_highlights (text : List Char) : TextHighlightData :=
  let normalized := normalize_text text
  if normalized.isEmpty then
    ⟨[], [], normalized⟩
  else
    ⟨wordSpansAux 0 (splitWordBounds normalized),
     sentenceSpansAux 0 (splitSentenceBounds normalized),
     normalized⟩

/-- `find_sentence_for_offset` from `tts_text.rs`: first sentence whose
half-open range contains the offset, else the last sentence, else `none`. -/
def find_sentence_for_offset (sentences : List SentenceSpan) (offset : Nat) :
    Option SentenceSpan :=
  match sentences.find? (fun s => s.start ≤ offset && offset < s.stop) with
  | some s => some s
  | none => sentences.getLast?

/-! ## Pdfium engine model (`pdf.rs`)

The engine (`pdfium-render`) is external; it is embedded as data.  A
text-layer character exposes an optional Unicode scalar (`unicode_char`)
and optional loose/tight bounds; `chars.get(i)` succeeds exactly for
`i < text.len()`; `document.pages().get(i)` takes a `u16` index and fails
with `PageIndexOutOfBounds` exactly when the index reaches the page
count.  Geometry is over `ℚ` (see the header note). -/

/-- Decidable equality for `Except` results (used to evaluate the embedded
operations at concrete inputs). -/
instance {ε α : Type} [DecidableEq ε] [DecidableEq α] :
    DecidableEq (Except ε α) := fun
  | Except.error e1, Except.error e2 =>
    if h : e1 = e2 then isTrue (by rw [h])
    else isFalse (by intro hc; injection hc; contradiction)
  | Except.error _, Except.ok _ =>
    isFalse (by intro hc; exact Except.noConfusion hc)
  | Except.ok _, Except.error _ =>
    isFalse (by intro hc; exact Except.noConfusion hc)
  | Except.ok a1, Except.ok a2 =>
    if h : a1 = a2 then isTrue (by rw [h])
    else isFalse (by intro hc; injection hc; contradiction)

/-- A content-space rectangle as returned by `loose_bounds`/`tight_bounds`. -/
structure PdfRect where
  left : ℚ
  top : ℚ
  right : ℚ
  bottom : ℚ
  deriving Repr, DecidableEq

/-- One text-layer character (`PdfPageTextChar`). -/
structure PdfChar where
  uni : Option Char
  loose : Option PdfRect
  tight : Option PdfRect
  deriving Repr, DecidableEq

/-- One page: its content-space origin and size (`page.page_size()`) and its
text layer (`page.text()` / `text.chars()`). -/
structure PdfPage where
  pageLeft : ℚ
  pageBottom : ℚ
  width : ℚ
  height : ℚ
  chars : List PdfChar
  deriving Repr, DecidableEq

/-- A parsed document handle (`PdfDocument`). -/
structure PdfDocument where
  pages : List PdfPage
  deriving Repr, DecidableEq

/-- Engine-level error taxonomy surfaced by the operations modelled here. -/
inductive PdfiumErr where
  | pageIndexOutOfRange
  | other
  deriving Repr, DecidableEq

/-- Normalized top-left-origin rectangle (`PdfTextRect` in the source). -/
structure PdfTextRect where
  left : ℚ
  top : ℚ
  right : ℚ
  bottom : ℚ
  deriving Repr, DecidableEq

/-- The zero rectangle pushed for whitespace / geometry-less characters. -/
def zeroRect : PdfTextRect := ⟨0, 0, 0, 0⟩

/-- Rust `f.clamp(lo, hi)` for `lo = 0.0, hi = 1.0`. -/
def clamp01 (x : ℚ) : ℚ :=
  if x < 0 then 0 else if x > 1 then 1 else x

/-- `document.pages().get(index)` — the index has already been truncated to
`u16` by the caller (`page_index as u16`). -/
def pagesGet (d : PdfDocument) (i : Nat) : Except PdfiumErr PdfPage :=
  match d.pages[i]? with
  | some p => Except.ok p
  | none => Except.error PdfiumErr.pageIndexOutOfRange

/-- `ch.loose_bounds().or_else(|_| ch.tight_bounds())`. -/
def charBounds (ch : PdfChar) : Option PdfRect :=
  match ch.loose with
  | some b => some b
  | none => ch.tight

/-- The shared coordinate transform of `extract_pdf_page_text_bounds` and
`extract_all_page_character_bounds`: normalize against the page origin and
size, flip the vertical axis, swap inverted pairs, clamp each coordinate to
the unit interval. -/
def projectRect (p : PdfPage) (b : PdfRect) : PdfTextRect :=
  let left := (b.left - p.pageLeft) / p.width
  let right := (b.right - p.pageLeft) / p.width
  let top := 1 - ((b.top - p.pageBottom) / p.height)
  let bottom := 1 - ((b.bottom - p.pageBottom) / p.height)
  let lr := if left > right then (right, left) else (left, right)
  let tb := if top > bottom then (bottom, top) else (top, bottom)
  ⟨clamp01 lr.1, clamp01 tb.1, clamp01 lr.2, clamp01 tb.2⟩

/-- Body of the range loop of `extract_pdf_page_text_bounds`: skip characters
that fail to resolve, have no Unicode scalar, are whitespace, or have no
bounds; otherwise project. -/
def boundsAt (p : PdfPage) (i : Nat) : Option PdfTextRect :=
  match p.chars[i]? with
  | none => none
  | some ch =>
    match ch.uni with
    | none => none
    | some c =>
      if isRustWhitespace c then none
      else
        match charBounds ch with
        | none => none
        | some b => some (projectRect p b)

/-- The per-page body of `extract_pdf_page_text_bounds` (everything inside
the `with_document` closure after the page and text layer are resolved). -/
def extractTextBoundsOnPage (p : PdfPage) (start_index end_index : Nat) :
    List PdfTextRect :=
  let total := p.chars.length
  if total = 0 then []
  else if start_index ≥ end_index ∨ start_index ≥ total then []
  else if p.width ≤ 0 ∨ p.height ≤ 0 then []
  else
    ((List.range (min end_index total - start_index)).filterMap
      (fun j => boundsAt p (start_index + j)))

/-- The per-page body of `extract_all_page_character_bounds`: same projection
but with an index-aligned `zeroRect` placeholder instead of skipping. -/
def extractAllBoundsOnPage (p : PdfPage) : List PdfTextRect :=
  let total := p.chars.length
  if total = 0 then []
  else if p.width ≤ 0 ∨ p.height ≤ 0 then []
  else
    (List.range total).map (fun i => (boundsAt p i).getD zeroRect)

/-- `extract_pdf_page_text_bounds` (document-level; `page_index as u16`
truncates the index to 16 bits before page resolution). -/
def extract_pdf_page_text_bounds (d : PdfDocument)
    (page_index start_index end_index : Nat) :
    Except PdfiumErr (List PdfTextRect) :=
  match pagesGet d (page_index % 65536) with
  | Except.error e => Except.error e
  | Except.ok p => Except.ok (extractTextBoundsOnPage p start_index end_index)

/-- `extract_all_page_character_bounds` (document-level). -/
def extract_all_page_character_bounds (d : PdfDocument) (page_index : Nat) :
    Except PdfiumErr (List PdfTextRect) :=
  match pagesGet d (page_index % 65536) with
  | Except.error e => Except.error e
  | Except.ok p => Except.ok (extractAllBoundsOnPage p)

/-- `PdfPageRenderResult`: rendering output with actual dimensions. -/
structure PdfPageRenderResult where
  data : List Nat
  width : Nat
  height : Nat
  deriving Repr, DecidableEq

/-- `render_pdf_page`: resolve the page (after the `u16` truncation of the
index) and hand it to the rendering stage; the bitmap/PNG stage is the
external engine, abstracted as `renderStage`. -/
def render_pdf_page
    (renderStage : PdfPage → Except PdfiumErr PdfPageRenderResult)
    (d : PdfDocument) (page_index : Nat) :
    Except PdfiumErr PdfPageRenderResult :=
  match pagesGet d (page_index % 65536) with
  | Except.error e => Except.error e
  | Except.ok p => renderStage p

/-! ## Document pool (`pdf.rs`, `DOCUMENT_POOL` / `with_document`)

The `lru` crate's `LruCache` is embedded as an association list ordered
most-recently-used first.  `get` promotes a hit to the front; `put` on a
fresh key at capacity pops the back (LRU) entry. -/

/-- `LruCache<String, D>`. -/
structure LruCache (D : Type) where
  entries : List (String × D)
  cap : Nat
  deriving Repr, DecidableEq

/-- The keys currently held, most-recently-used first. -/
def LruCache.keys {D : Type} (c : LruCache D) : List String :=
  c.entries.map Prod.fst

/-- `LruCache::get`: on a hit, move the entry to the front and return its
value; on a miss, leave the cache unchanged. -/
def LruCache.get {D : Type} (c : LruCache D) (k : String) :
    Option D × LruCache D :=
  match c.entries.find? (fun e => e.1 = k) with
  | some e =>
    (some e.2, ⟨(k, e.2) :: c.entries.filter (fun e => ¬(e.1 = k)), c.cap⟩)
  | none => (none, c)

/-- `LruCache::put`: an existing key is updated and promoted; a fresh key at
capacity evicts the back entry; otherwise the entry is pushed at the front. -/
def LruCache.put {D : Type} (c : LruCache D) (k : String) (v : D) :
    LruCache D :=
  if c.entries.any (fun e => e.1 = k) then
    ⟨(k, v) :: c.entries.filter (fun e => ¬(e.1 = k)), c.cap⟩
  else if c.entries.length = c.cap then
    ⟨(k, v) :: c.entries.dropLast, c.cap⟩
  else
    ⟨(k, v) :: c.entries, c.cap⟩

/-- `with_document` from `pdf.rs`, with the load step and the callback as
parameters (they are I/O in the source).  `retrieveErr` stands for the
`"Failed to retrieve document after caching"` error value. -/
def with_document {E D R : Type} (load : String → Except E D)
    (retrieveErr : E) (f : D → Except E R) (cache : LruCache D)
    (path : String) : Except E R × LruCache D :=
  match cache.get path with
  | (some doc, cache1) => (f doc, cache1)
  | (none, cache1) =>
    match load path with
    | Except.error e => (Except.error e, cache1)
    | Except.ok doc =>
      let cache2 := cache1.put path doc
      match cache2.get path with
      | (some doc2, cache3) => (f doc2, cache3)
      | (none, cache3) => (Except.error retrieveErr, cache3)

/-- One `with_document` call in a trace: the path requested and the outcome
the loader would produce for it at that moment (`none` = load failure). -/
structure PoolEvent (D : Type) where
  path : String
  load : Option D
  deriving Repr, DecidableEq

/-- The pool-state effect of one `with_document` call. -/
def poolStep {D : Type} (c : LruCache D) (ev : PoolEvent D) : LruCache D :=
  (with_document
    (fun _ => match ev.load with
      | some d => Except.ok d
      | none => Except.error ())
    () Except.ok c ev.path).2

/-- The pool after a sequence of `with_document` calls, starting from the
empty capacity-4 cache created by `get_pool`. -/
def runPool {D : Type} (evs : List (PoolEvent D)) : LruCache D :=
  evs.foldl poolStep ⟨[], 4⟩

/-- Whether a call touches (and hence refreshes the recency of) its key: a
cache hit does, and so does a successful load-and-insert; a failed load of
an absent key does not. -/
def usesKey {D : Type} (c : LruCache D) (ev : PoolEvent D) : Bool :=
  c.entries.any (fun e => e.1 = ev.path) || ev.load.isSome

/-- Worker for `lastUse`: position (1-based, starting at `i`) of the last
event in the list that touches key `k`, or `0` if none does. -/
def lastUseAux {D : Type} (c : LruCache D) (i : Nat) :
    List (PoolEvent D) → String → Nat
  | [], _ => 0
  | ev :: rest, k =>
    let later := lastUseAux (poolStep c ev) (i + 1) rest k
    if later ≠ 0 then later
    else if ev.path = k ∧ usesKey c ev then i else 0

/-- `lastUse evs k`: 1-based index of the last access (get hit or successful
put) of key `k` in the trace `evs`, or `0` if `k` was never accessed. -/
def lastUse {D : Type} (evs : List (PoolEvent D)) (k : String) : Nat :=
  lastUseAux (⟨[], 4⟩ : LruCache D) 1 evs k

/-! ## Claim C3: highlights of `"Hello world. This is a test."` -/

/-- C3 counterexample: on the exact input `"Hello world. This is a test."`
the word list does not have 6 entries.  `split_word_bounds` yields
punctuation as its own segments, and the source filters only pure-whitespace
segments, so the two periods become word spans and 8 spans are produced. -/
theorem c3_word_count_counterexample :
    (precompute_text_highlights
      "Hello world. This is a test.".toList).words.length ≠ 6 := by
  decide

/-- C3 (amended): `precompute_text_highlights "Hello world. This is a test."`
produces exactly 2 sentence spans with strictly increasing, non-overlapping
ranges whose substrings over the normalized text are `"Hello world."` and
`"This is a test."`, and exactly 8 word spans — `"Hello"`, `"world"`, `"."`,
`"This"`, `"is"`, `"a"`, `"test"`, `"."` in order (periods included as their
own spans, since only whitespace segments are excluded), each span's text
matching the normalized text at its offsets. -/
theorem c3_highlights_hello_world :
    (precompute_text_highlights "Hello world. This is a test.".toList).sentences
        = [⟨0, 12⟩, ⟨13, 28⟩] ∧
    ((precompute_text_highlights
        "Hello world. This is a test.".toList).normalized_text.take 12
      = "Hello world.".toList) ∧
    (((precompute_text_highlights
        "Hello world. This is a test.".toList).normalized_text.drop 13).take 15
      = "This is a test.".toList) ∧
    (precompute_text_highlights "Hello world. This is a test.".toList).words
        = [⟨0, 5, "Hello".toList⟩, ⟨6, 11, "world".toList⟩,
           ⟨11, 12, ".".toList⟩, ⟨13, 17, "This".toList⟩,
           ⟨18, 20, "is".toList⟩, ⟨21, 22, "a".toList⟩,
           ⟨23, 27, "test".toList⟩, ⟨27, 28, ".".toList⟩] := by
  decide

/-! ## Claim C6: `find_sentence_for_offset` -/

/-- `List.find?` returns the element at the first index satisfying the
predicate. -/
theorem find?_eq_get_of_first {α : Type} (p : α → Bool) (l : List α)
    (i : Nat) (hi : i < l.length) (hp : p (l.get ⟨i, hi⟩) = true)
    (hmin : ∀ j (hj : j < l.length), j < i → ¬ p (l.get ⟨j, hj⟩) = true) :
    l.find? p = some (l.get ⟨i, hi⟩) := by
  induction l generalizing i with
  | nil => exact absurd hi (by simp)
  | cons a t ih =>
    cases i with
    | zero =>
      simp only [List.get] at hp ⊢
      simp [List.find?, hp]
    | succ j =>
      have ha : ¬ p a = true := hmin 0 (by simp) (Nat.succ_pos j)
      simp only [List.find?, ha]
      exact ih j (Nat.lt_of_succ_lt_succ hi) hp
        (fun j2 hj2 hlt =>
          hmin (j2 + 1) (Nat.succ_lt_succ hj2) (Nat.succ_lt_succ hlt))

/-- C6: `find_sentence_for_offset` returns the first sentence whose
`[start, stop)` range contains the offset; when the offset is at or past
every sentence's end it returns the last sentence; and it returns `none`
exactly when the sentence list is empty. -/
theorem c6_find_sentence_for_offset (ss : List SentenceSpan) (off : Nat) :
    (∀ i (hi : i < ss.length),
      (ss.get ⟨i, hi⟩).start ≤ off → off < (ss.get ⟨i, hi⟩).stop →
      (∀ j (hj : j < ss.length), j < i →
        ¬((ss.get ⟨j, hj⟩).start ≤ off ∧ off < (ss.get ⟨j, hj⟩).stop)) →
      find_sentence_for_offset ss off = some (ss.get ⟨i, hi⟩)) ∧
    ((∀ s ∈ ss, s.stop ≤ off) →
      find_sentence_for_offset ss off = ss.getLast?) ∧
    (find_sentence_for_offset ss off = none ↔ ss = []) := by
  refine ⟨?_, ?_, ?_⟩
  · intro i hi h1 h2 hmin
    unfold find_sentence_for_offset
    rw [find?_eq_get_of_first _ _ i hi
        (by simp only [Bool.and_eq_true, decide_eq_true_eq]; exact ⟨h1, h2⟩)
      (fun j hj hlt => by
        have := hmin j hj hlt
        simpa [Bool.and_eq_true, decide_eq_true_eq] using this)]
  · intro hall
    unfold find_sentence_for_offset
    have hnone : ss.find? (fun s => s.start ≤ off && off < s.stop) = none := by
      rw [List.find?_eq_none]
      intro s hs
      have := hall s hs
      simp [Bool.and_eq_true, decide_eq_true_eq]
      intro _
      exact this
    rw [hnone]
  · unfold find_sentence_for_offset
    cases hfind : ss.find? (fun s => s.start ≤ off && off < s.stop) with
    | some s =>
      simp only []
      constructor
      · intro h; exact absurd h (by simp)
      · intro h; subst h; simp [List.find?] at hfind
    | none =>
      simp only [List.getLast?_eq_none_iff]

/-! ## Claim C9: invalid ranges give an empty result, not an error -/

/-- C9: on any resolvable page, `extract_pdf_page_text_bounds` with
`start_index ≥ end_index` or `start_index ≥` the page's character count
returns `ok []` — an empty list, never an error. -/
theorem c9_invalid_range_empty (d : PdfDocument) (p : PdfPage)
    (page_index start_index end_index : Nat)
    (hp : pagesGet d (page_index % 65536) = Except.ok p)
    (h : start_index ≥ end_index ∨ start_index ≥ p.chars.length) :
    extract_pdf_page_text_bounds d page_index start_index end_index
      = Except.ok [] := by
  have hbody : extractTextBoundsOnPage p start_index end_index = [] := by
    unfold extractTextBoundsOnPage
    by_cases h0 : p.chars.length = 0
    · simp [h0]
    · rw [if_neg h0, if_pos h]
  simp only [extract_pdf_page_text_bounds, hp, hbody]

/-- Witness for C9 at a concrete document and range. -/
theorem c9_invalid_range_empty_witness :
    extract_pdf_page_text_bounds
      ⟨[⟨0, 0, 10, 10, [⟨some 'a', some ⟨1, 2, 2, 1⟩, none⟩]⟩]⟩ 0 3 2
      = Except.ok [] :=
  c9_invalid_range_empty
    ⟨[⟨0, 0, 10, 10, [⟨some 'a', some ⟨1, 2, 2, 1⟩, none⟩]⟩]⟩
    ⟨0, 0, 10, 10, [⟨some 'a', some ⟨1, 2, 2, 1⟩, none⟩]⟩
    0 3 2 (by decide) (by decide)

/-! ## Claim C2: `extract_all_page_character_bounds` is index-aligned -/

/-- A one-page document whose page has zero width but one visible
character: the degenerate-geometry guard returns an empty list. -/
def degeneratePage : PdfPage :=
  ⟨0, 0, 0, 10, [⟨some 'a', some ⟨1, 2, 2, 1⟩, none⟩]⟩

/-- The document holding `degeneratePage`. -/
def degenerateDoc : PdfDocument := ⟨[degeneratePage]⟩

/-- C2 counterexample: on a resolvable page with one character but
non-positive width, `extract_all_page_character_bounds` returns an empty
list, so its length differs from the page's total character count. -/
theorem c2_degenerate_page_counterexample :
    pagesGet degenerateDoc 0 = Except.ok degeneratePage ∧
    degeneratePage.chars.length = 1 ∧
    extract_all_page_character_bounds degenerateDoc 0 = Except.ok [] := by
  decide

/-- C2 (amended): on every resolvable page with positive width and height,
`extract_all_page_character_bounds` returns a list whose length equals the
page's total character count, and every index holding a whitespace,
scalar-less, or geometry-less character holds the zero rectangle (pages
with non-positive width or height and at least one character instead yield
an empty list, per the counterexample). -/
theorem c2_all_bounds_index_aligned (d : PdfDocument) (p : PdfPage)
    (page_index : Nat)
    (hp : pagesGet d (page_index % 65536) = Except.ok p)
    (hw : 0 < p.width) (hh : 0 < p.height) :
    ∃ rects, extract_all_page_character_bounds d page_index
        = Except.ok rects ∧
      rects.length = p.chars.length ∧
      ∀ (i : Nat) (ch : PdfChar), p.chars[i]? = some ch →
        (ch.uni = none ∨
          (∃ c, ch.uni = some c ∧ isRustWhitespace c = true) ∨
          charBounds ch = none) →
        rects[i]? = some zeroRect := by
  refine ⟨extractAllBoundsOnPage p, ?_, ?_, ?_⟩
  · simp only [extract_all_page_character_bounds, hp]
  · unfold extractAllBoundsOnPage
    by_cases h0 : p.chars.length = 0
    · simp [h0]
    · rw [if_neg h0, if_neg (by push_neg; exact ⟨hw, hh⟩)]
      simp
  · intro i ch hch hdeg
    have hi : i < p.chars.length := by
      by_contra hge
      rw [List.getElem?_eq_none (by omega)] at hch
      exact absurd hch (by simp)
    have h0 : ¬ p.chars.length = 0 := by omega
    have hzero : boundsAt p i = none := by
      rcases hdeg with h | ⟨c, hc, hws⟩ | hb
      · simp only [boundsAt, hch, h]
      · simp [boundsAt, hch, hc, hws]
      · cases hu : ch.uni with
        | none => simp only [boundsAt, hch, hu]
        | some c =>
          by_cases hws : isRustWhitespace c
          · simp [boundsAt, hch, hu, hws]
          · simp [boundsAt, hch, hu, hws, hb]
    unfold extractAllBoundsOnPage
    rw [if_neg h0, if_neg (by push_neg; exact ⟨hw, hh⟩)]
    rw [List.getElem?_map _ _ i, List.getElem?_range hi]
    simp [hzero]

/-- Witness for C2 at a concrete page: one whitespace character on a
non-degenerate page yields a singleton list holding the zero rectangle. -/
theorem c2_all_bounds_index_aligned_witness :
    ∃ rects,
      extract_all_page_character_bounds
          ⟨[⟨0, 0, 10, 10, [⟨some ' ', some ⟨1, 2, 2, 1⟩, none⟩]⟩]⟩ 0
        = Except.ok rects ∧
      rects.length
        = (⟨0, 0, 10, 10, [⟨some ' ', some ⟨1, 2, 2, 1⟩, none⟩]⟩ :
            PdfPage).chars.length ∧
      ∀ (i : Nat) (ch : PdfChar),
        (⟨0, 0, 10, 10, [⟨some ' ', some ⟨1, 2, 2, 1⟩, none⟩]⟩ :
            PdfPage).chars[i]? = some ch →
        (ch.uni = none ∨
          (∃ c, ch.uni = some c ∧ isRustWhitespace c = true) ∨
          charBounds ch = none) →
        rects[i]? = some zeroRect :=
  c2_all_bounds_index_aligned
    ⟨[⟨0, 0, 10, 10, [⟨some ' ', some ⟨1, 2, 2, 1⟩, none⟩]⟩]⟩
    ⟨0, 0, 10, 10, [⟨some ' ', some ⟨1, 2, 2, 1⟩, none⟩]⟩
    0 (by decide) (by decide) (by decide)

/-! ## Claim C4: every produced rectangle is normalized and ordered -/

/-- `clamp01` lands in the unit interval. -/
theorem clamp01_mem (x : ℚ) : 0 ≤ clamp01 x ∧ clamp01 x ≤ 1 := by
  unfold clamp01
  by_cases h0 : x < 0 <;> by_cases h1 : x > 1 <;>
    simp only [h0, h1, if_true, if_false] <;> constructor <;> linarith

/-- `clamp01` is monotone. -/
theorem clamp01_mono {x y : ℚ} (h : x ≤ y) : clamp01 x ≤ clamp01 y := by
  unfold clamp01
  by_cases hx0 : x < 0 <;> by_cases hy0 : y < 0 <;>
    by_cases hx1 : x > 1 <;> by_cases hy1 : y > 1 <;>
    simp only [hx0, hy0, hx1, hy1, if_true, if_false] <;> linarith

/-- A rectangle is well-formed when its coordinates lie in the unit square
and are correctly ordered. -/
def RectWF (r : PdfTextRect) : Prop :=
  0 ≤ r.left ∧ r.left ≤ r.right ∧ r.right ≤ 1 ∧
  0 ≤ r.top ∧ r.top ≤ r.bottom ∧ r.bottom ≤ 1

/-- The zero ("no geometry") rectangle is well-formed. -/
theorem zeroRect_wf : RectWF zeroRect := by
  unfold RectWF zeroRect
  norm_num

/-- Every projected rectangle is well-formed: the swap step orders each
coordinate pair and the clamp step is monotone into the unit interval. -/
theorem projectRect_wf (p : PdfPage) (b : PdfRect) :
    RectWF (projectRect p b) := by
  unfold RectWF projectRect
  set left := (b.left - p.pageLeft) / p.width with hleft
  set right := (b.right - p.pageLeft) / p.width with hright
  set top := 1 - ((b.top - p.pageBottom) / p.height) with htop
  set bottom := 1 - ((b.bottom - p.pageBottom) / p.height) with hbottom
  have hlr : (if left > right then (right, left) else (left, right)).1
      ≤ (if left > right then (right, left) else (left, right)).2 := by
    split <;> rename_i h
    · exact le_of_lt h
    · exact le_of_not_lt h
  have htb : (if top > bottom then (bottom, top) else (top, bottom)).1
      ≤ (if top > bottom then (bottom, top) else (top, bottom)).2 := by
    split <;> rename_i h
    · exact le_of_lt h
    · exact le_of_not_lt h
  refine ⟨(clamp01_mem _).1, clamp01_mono hlr, (clamp01_mem _).2,
    (clamp01_mem _).1, clamp01_mono htb, (clamp01_mem _).2⟩

/-- Every rectangle in the output of `boundsAt` is a projection. -/
theorem boundsAt_eq_some {p : PdfPage} {i : Nat} {r : PdfTextRect}
    (h : boundsAt p i = some r) : ∃ b, r = projectRect p b := by
  unfold boundsAt at h
  repeat' split at h
  all_goals simp at h
  exact ⟨_, h.symm⟩

/-- C4: every normalized rectangle produced by
`extract_pdf_page_text_bounds` or `extract_all_page_character_bounds`
satisfies `0 ≤ left ≤ right ≤ 1` and `0 ≤ top ≤ bottom ≤ 1`. -/
theorem c4_rects_normalized (d : PdfDocument)
    (page_index start_index end_index : Nat) (rects : List PdfTextRect)
    (r : PdfTextRect)
    (hs : extract_pdf_page_text_bounds d page_index start_index end_index
        = Except.ok rects ∨
      extract_all_page_character_bounds d page_index = Except.ok rects)
    (hr : r ∈ rects) :
    0 ≤ r.left ∧ r.left ≤ r.right ∧ r.right ≤ 1 ∧
    0 ≤ r.top ∧ r.top ≤ r.bottom ∧ r.bottom ≤ 1 := by
  have hwf : RectWF r := by
    rcases hs with hs | hs
    · unfold extract_pdf_page_text_bounds at hs
      rcases hpg : pagesGet d (page_index % 65536) with e | p
      · rw [hpg] at hs; exact absurd hs (by simp)
      · rw [hpg] at hs
        injection hs with hs
        subst hs
        simp only [extractTextBoundsOnPage] at hr
        split at hr
        · exact absurd hr (by simp)
        · split at hr
          · exact absurd hr (by simp)
          · split at hr
            · exact absurd hr (by simp)
            · obtain ⟨j, _, hj⟩ := List.mem_filterMap.mp hr
              obtain ⟨b, hb⟩ := boundsAt_eq_some hj
              rw [hb]; exact projectRect_wf _ _
    · unfold extract_all_page_character_bounds at hs
      rcases hpg : pagesGet d (page_index % 65536) with e | p
      · rw [hpg] at hs; exact absurd hs (by simp)
      · rw [hpg] at hs
        injection hs with hs
        subst hs
        simp only [extractAllBoundsOnPage] at hr
        split at hr
        · exact absurd hr (by simp)
        · split at hr
          · exact absurd hr (by simp)
          · obtain ⟨i, _, hi⟩ := List.mem_map.mp hr
            rcases hball : boundsAt p i with _ | r2
            · rw [hball] at hi
              simp only [Option.getD_none] at hi
              rw [← hi]; exact zeroRect_wf
            · rw [hball] at hi
              simp only [Option.getD_some] at hi
              obtain ⟨b, hb⟩ := boundsAt_eq_some hball
              rw [← hi, hb]; exact projectRect_wf _ _
  exact hwf

/-- Witness for C4 at a concrete page holding one whitespace character: the
produced placeholder rectangle is normalized and ordered. -/
theorem c4_rects_normalized_witness :
    (0 : ℚ) ≤ zeroRect.left ∧
    zeroRect.left ≤ zeroRect.right ∧
    zeroRect.right ≤ 1 ∧
    (0 : ℚ) ≤ zeroRect.top ∧
    zeroRect.top ≤ zeroRect.bottom ∧
    zeroRect.bottom ≤ 1 :=
  c4_rects_normalized
    ⟨[⟨0, 0, 10, 10, [⟨some ' ', some ⟨1, 2, 2, 1⟩, none⟩]⟩]⟩
    0 0 1 [zeroRect] zeroRect
    (Or.inr (by decide)) (by decide)

/-! ## Claim C5: page resolution and `PageIndexOutOfRange` -/

/-- A one-page document and a rendering stage that always succeeds. -/
def onePageDoc : PdfDocument := ⟨[⟨0, 0, 10, 10, []⟩]⟩

/-- An always-succeeding rendering stage (stands for the engine bitmap and
PNG encoding steps, which are outside this core). -/
def constRenderStage : PdfPage → Except PdfiumErr PdfPageRenderResult :=
  fun _ => Except.ok ⟨[], 1, 1⟩

/-- C5 counterexample: `page_index` is truncated to 16 bits
(`page_index as u16`) before resolution, so index 65536 on a one-page
document resolves page 0 and renders successfully instead of failing with
`PageIndexOutOfRange`, although 65536 ≥ the page count. -/
theorem c5_truncation_counterexample :
    onePageDoc.pages.length ≤ 65536 ∧
    render_pdf_page constRenderStage onePageDoc 65536
      ≠ Except.error PdfiumErr.pageIndexOutOfRange := by
  decide

/-- C5 (amended): for page indices below 65536 (larger values are truncated
to 16 bits by the `as u16` cast), `render_pdf_page` fails with
`PageIndexOutOfRange` whenever the index is at or past the page count, and
otherwise resolves the page and hands it to the rendering stage. -/
theorem c5_page_index_out_of_range
    (renderStage : PdfPage → Except PdfiumErr PdfPageRenderResult)
    (d : PdfDocument) (page_index : Nat) (hlt : page_index < 65536) :
    (d.pages.length ≤ page_index →
      render_pdf_page renderStage d page_index
        = Except.error PdfiumErr.pageIndexOutOfRange) ∧
    ∀ (hi : page_index < d.pages.length),
      render_pdf_page renderStage d page_index
        = renderStage (d.pages.get ⟨page_index, hi⟩) := by
  have hmod : page_index % 65536 = page_index := Nat.mod_eq_of_lt hlt
  constructor
  · intro hge
    simp only [render_pdf_page, pagesGet, hmod, List.getElem?_eq_none hge]
  · intro hi
    simp only [render_pdf_page, pagesGet, hmod, List.getElem?_eq_getElem hi]
    rfl

/-- Witness for C5: index 1 on a one-page document fails with
`PageIndexOutOfRange`, and index 0 renders. -/
theorem c5_page_index_out_of_range_witness :
    render_pdf_page constRenderStage onePageDoc 1
      = Except.error PdfiumErr.pageIndexOutOfRange ∧
    render_pdf_page constRenderStage onePageDoc 0
      = constRenderStage (onePageDoc.pages.get ⟨0, by decide⟩) :=
  ⟨(c5_page_index_out_of_range constRenderStage onePageDoc 1
      (by decide)).1 (by decide),
   (c5_page_index_out_of_range constRenderStage onePageDoc 0
      (by decide)).2 (by decide)⟩

/-- Witness for C6 at a concrete sentence list: offset 7 falls in the second
sentence, offset 12 is past every end and yields the last sentence, and the
result is never `none` on a non-empty list. -/
theorem c6_find_sentence_for_offset_witness :
    find_sentence_for_offset [⟨0, 5⟩, ⟨6, 10⟩] 7 = some ⟨6, 10⟩ ∧
    find_sentence_for_offset [⟨0, 5⟩, ⟨6, 10⟩] 12
      = ([⟨0, 5⟩, ⟨6, 10⟩] : List SentenceSpan).getLast? ∧
    (find_sentence_for_offset [⟨0, 5⟩, ⟨6, 10⟩] 0 = none ↔
      ([⟨0, 5⟩, ⟨6, 10⟩] : List SentenceSpan) = []) :=
  ⟨(c6_find_sentence_for_offset [⟨0, 5⟩, ⟨6, 10⟩] 7).1 1 (by decide)
      (by decide) (by decide)
      (fun j hj hlt => by
        have hj0 : j = 0 := by omega
        subst hj0
        show ¬((0 : Nat) ≤ 7 ∧ 7 < 5)
        decide),
   (c6_find_sentence_for_offset [⟨0, 5⟩, ⟨6, 10⟩] 12).2.1
      (by decide),
   (c6_find_sentence_for_offset [⟨0, 5⟩, ⟨6, 10⟩] 0).2.2⟩

/-! ## LRU cache lemmas -/

/-- `find?` misses on a key that is not in the cache. -/
theorem find?_eq_none_of_not_mem_keys {D : Type} {c : LruCache D}
    {k : String} (h : k ∉ c.keys) :
    c.entries.find? (fun e => e.1 = k) = none := by
  rw [List.find?_eq_none]
  intro e he
  simp only [decide_eq_true_eq]
  intro hek
  exact h (hek ▸ List.mem_map_of_mem Prod.fst he)

/-- `get` on an absent key returns `none` and leaves the cache unchanged. -/
theorem get_of_not_mem_keys {D : Type} {c : LruCache D} {k : String}
    (h : k ∉ c.keys) : c.get k = (none, c) := by
  simp only [LruCache.get, find?_eq_none_of_not_mem_keys h]

/-- Filtering out an absent key is the identity. -/
theorem filter_ne_of_not_mem_keys {D : Type} {l : List (String × D)}
    {k : String} (h : k ∉ l.map Prod.fst) :
    l.filter (fun e => ¬(e.1 = k)) = l := by
  apply List.filter_eq_self.mpr
  intro e he
  simp only [decide_eq_true_eq]
  intro hek
  exact h (hek ▸ List.mem_map_of_mem Prod.fst he)

/-- `get` on a cache whose front entry holds the key is the identity (the
move-to-front is a no-op). -/
theorem get_cons_self {D : Type} (k : String) (v : D)
    (X : List (String × D)) (cap : Nat) (h : k ∉ X.map Prod.fst) :
    LruCache.get ⟨(k, v) :: X, cap⟩ k = (some v, ⟨(k, v) :: X, cap⟩) := by
  have hfind : ((k, v) :: X).find? (fun e => e.1 = k) = some (k, v) :=
    List.find?_cons_of_pos _ (by simp)
  simp only [LruCache.get, hfind]
  refine congrArg _ ?_
  refine congrArg (fun l => LruCache.mk l cap) ?_
  show (k, v) :: ((k, v) :: X).filter (fun e => ¬(e.1 = k)) = (k, v) :: X
  rw [List.filter_cons_of_neg (by simp), filter_ne_of_not_mem_keys h]

/-- `put` of a fresh key never touches the capacity and conses the new
entry onto either the whole list or its `dropLast`. -/
theorem put_fresh_entries {D : Type} {c : LruCache D} {k : String} {v : D}
    (h : k ∉ c.keys) :
    c.put k v = ⟨(k, v) ::
      (if c.entries.length = c.cap then c.entries.dropLast else c.entries),
      c.cap⟩ := by
  have hany : c.entries.any (fun e => e.1 = k) = false := by
    rw [List.any_eq_false]
    intro e he
    simp only [decide_eq_true_eq]
    intro hek
    exact h (hek ▸ List.mem_map_of_mem Prod.fst he)
  unfold LruCache.put
  rw [hany]
  by_cases hlen : c.entries.length = c.cap
  · rw [if_pos hlen, if_pos hlen]
    simp
  · rw [if_neg hlen, if_neg hlen]
    simp

/-- The keys of `dropLast` are a sublist of the keys. -/
theorem keys_dropLast_sublist {D : Type} (l : List (String × D)) :
    (l.dropLast.map Prod.fst).Sublist (l.map Prod.fst) :=
  (l.dropLast_sublist).map Prod.fst

/-- `get` right after a fresh-key `put` finds the entry and leaves the
cache unchanged. -/
theorem get_put_fresh {D : Type} {c : LruCache D} {k : String} {v : D}
    (h : k ∉ c.keys) :
    (c.put k v).get k = (some v, c.put k v) := by
  rw [put_fresh_entries h]
  apply get_cons_self
  intro hk
  by_cases hlen : c.entries.length = c.cap
  · rw [if_pos hlen] at hk
    exact h ((keys_dropLast_sublist c.entries).mem hk)
  · rw [if_neg hlen] at hk
    exact h hk

/-! ## Claim C10: load failures are propagated and not cached -/

/-- C10: when the key is absent and the load fails, `with_document`
propagates the failure and leaves the pool untouched (the failing
identifier is not inserted); a subsequent call with the same identifier
re-attempts the load — if that load succeeds, the callback runs on the
loaded document and the identifier is then cached. -/
theorem c10_load_failure_not_cached {E D R : Type}
    (load : String → Except E D) (retrieveErr : E) (f : D → Except E R)
    (cache : LruCache D) (path : String) (e : E)
    (hmiss : path ∉ cache.keys) (hload : load path = Except.error e) :
    with_document load retrieveErr f cache path = (Except.error e, cache) ∧
    ∀ (load2 : String → Except E D) (d : D), load2 path = Except.ok d →
      (with_document load2 retrieveErr f cache path).1 = f d ∧
      path ∈ (with_document load2 retrieveErr f cache path).2.keys := by
  have hget := get_of_not_mem_keys (D := D) (c := cache) hmiss
  constructor
  · simp only [with_document, hget, hload]
  · intro load2 d hload2
    have hput := get_put_fresh (c := cache) (k := path) (v := d) hmiss
    simp only [with_document, hget, hload2, hput]
    constructor
    · trivial
    · rw [put_fresh_entries hmiss]
      exact List.mem_map_of_mem Prod.fst (List.mem_cons_self _ _)

/-- Witness for C10: a failing load of `"a"` on the empty pool propagates
the error and caches nothing; retrying with a succeeding loader works. -/
theorem c10_load_failure_not_cached_witness :
    with_document (fun _ => Except.error 7) 0 Except.ok
        (⟨[], 4⟩ : LruCache Unit) "a"
      = (Except.error 7, (⟨[], 4⟩ : LruCache Unit)) ∧
    ∀ (load2 : String → Except Nat Unit) (d : Unit),
      load2 "a" = Except.ok d →
      (with_document load2 0 Except.ok (⟨[], 4⟩ : LruCache Unit) "a").1
        = Except.ok d ∧
      "a" ∈ (with_document load2 0 Except.ok
        (⟨[], 4⟩ : LruCache Unit) "a").2.keys :=
  c10_load_failure_not_cached (fun _ => Except.error 7) 0 Except.ok
    (⟨[], 4⟩ : LruCache Unit) "a" 7 (by decide) rfl

/-! ## Claim C7: idempotence of `normalize_text` -/

/-- All whitespace in a list is the ASCII space. -/
def OnlySpaceWS (l : List Char) : Prop :=
  ∀ c ∈ l, isRustWhitespace c = true → c = ' '

/-- No two adjacent whitespace characters. -/
def NoAdjacentWS (l : List Char) : Prop :=
  List.Chain'
    (fun a b => ¬(isRustWhitespace a = true ∧ isRustWhitespace b = true)) l

/-- The head, if any, is not whitespace. -/
def HeadNotWS (l : List Char) : Prop :=
  ∀ c, l.head? = some c → isRustWhitespace c = false

/-- The last element, if any, is not whitespace. -/
def LastNotWS (l : List Char) : Prop :=
  ∀ c, l.getLast? = some c → isRustWhitespace c = false

/-- Unfolding: collapsing the empty list. -/
theorem collapseAux_nil (b : Bool) : collapseAux b [] = [] := rfl

/-- Unfolding: a whitespace character inside a run is dropped. -/
theorem collapseAux_cons_ws_true {c : Char} (t : List Char)
    (h : isRustWhitespace c = true) :
    collapseAux true (c :: t) = collapseAux true t := by
  simp [collapseAux, h]

/-- Unfolding: a whitespace character starting a run emits one space. -/
theorem collapseAux_cons_ws_false {c : Char} (t : List Char)
    (h : isRustWhitespace c = true) :
    collapseAux false (c :: t) = ' ' :: collapseAux true t := by
  simp [collapseAux, h]

/-- Unfolding: a non-whitespace character passes through and ends any run. -/
theorem collapseAux_cons_nws {c : Char} (b : Bool) (t : List Char)
    (h : isRustWhitespace c = false) :
    collapseAux b (c :: t) = c :: collapseAux false t := by
  simp [collapseAux, h]

/-- Everything the collapser emits is either the replacement space or an
input character. -/
theorem mem_collapseAux {c : Char} :
    ∀ (l : List Char) (b : Bool), c ∈ collapseAux b l → c = ' ' ∨ c ∈ l := by
  intro l
  induction l with
  | nil => intro b h; rw [collapseAux_nil] at h; exact absurd h (by simp)
  | cons a t ih =>
    intro b h
    by_cases hws : isRustWhitespace a
    · cases b with
      | true =>
        rw [collapseAux_cons_ws_true t hws] at h
        rcases ih true h with h2 | h2
        · exact Or.inl h2
        · exact Or.inr (List.mem_cons_of_mem a h2)
      | false =>
        rw [collapseAux_cons_ws_false t hws] at h
        rcases List.mem_cons.mp h with h2 | h2
        · exact Or.inl h2
        · rcases ih true h2 with h3 | h3
          · exact Or.inl h3
          · exact Or.inr (List.mem_cons_of_mem a h3)
    · rw [collapseAux_cons_nws b t (by simpa using hws)] at h
      rcases List.mem_cons.mp h with h2 | h2
      · exact Or.inr (h2 ▸ List.mem_cons_self a t)
      · rcases ih false h2 with h3 | h3
        · exact Or.inl h3
        · exact Or.inr (List.mem_cons_of_mem a h3)

/-- The collapser only ever emits the ASCII space as whitespace. -/
theorem onlySpaceWS_collapseAux :
    ∀ (l : List Char) (b : Bool), OnlySpaceWS (collapseAux b l) := by
  intro l
  induction l with
  | nil =>
    intro b c hc
    rw [collapseAux_nil] at hc
    exact absurd hc (by simp)
  | cons a t ih =>
    intro b c hc hws
    by_cases ha : isRustWhitespace a
    · cases b with
      | true =>
        rw [collapseAux_cons_ws_true t ha] at hc
        exact ih true c hc hws
      | false =>
        rw [collapseAux_cons_ws_false t ha] at hc
        rcases List.mem_cons.mp hc with h2 | h2
        · exact h2
        · exact ih true c h2 hws
    · rw [collapseAux_cons_nws b t (by simpa using ha)] at hc
      rcases List.mem_cons.mp hc with h2 | h2
      · subst h2; exact absurd hws (by simpa using ha)
      · exact ih false c h2 hws

/-- After a run has been collapsed, the next emitted character is not
whitespace. -/
theorem headNotWS_collapseAux_true :
    ∀ (l : List Char), HeadNotWS (collapseAux true l) := by
  intro l
  induction l with
  | nil =>
    intro c hc
    rw [collapseAux_nil] at hc
    exact absurd hc (by simp)
  | cons a t ih =>
    intro c hc
    by_cases ha : isRustWhitespace a
    · rw [collapseAux_cons_ws_true t ha] at hc
      exact ih c hc
    · rw [collapseAux_cons_nws true t (by simpa using ha)] at hc
      simp only [List.head?_cons, Option.some.injEq] at hc
      rw [← hc]
      simpa using ha

/-- The collapser never emits two adjacent whitespace characters. -/
theorem noAdjacentWS_collapseAux :
    ∀ (l : List Char) (b : Bool), NoAdjacentWS (collapseAux b l) := by
  intro l
  induction l with
  | nil => intro b; rw [collapseAux_nil]; exact List.chain'_nil
  | cons a t ih =>
    intro b
    by_cases ha : isRustWhitespace a
    · cases b with
      | true => rw [collapseAux_cons_ws_true t ha]; exact ih true
      | false =>
        rw [collapseAux_cons_ws_false t ha]
        refine List.chain'_cons'.mpr ⟨?_, ih true⟩
        intro y hy hcon
        exact absurd hcon.2 (by simp [headNotWS_collapseAux_true t y hy])
    · rw [collapseAux_cons_nws b t (by simpa using ha)]
      refine List.chain'_cons'.mpr ⟨?_, ih false⟩
      intro y hy hcon
      exact absurd hcon.1 (by simpa using ha)

/-- `getLast?` ignores the head when the tail is non-empty. -/
theorem getLast?_cons_ne {a : Char} {l : List Char} (h : l ≠ []) :
    (a :: l).getLast? = l.getLast? := by
  cases l with
  | nil => exact absurd rfl h
  | cons x xs => exact List.getLast?_cons_cons

/-- Collapsing preserves a non-whitespace last character. -/
theorem last_collapseAux_concat {z : Char}
    (hz : isRustWhitespace z = false) :
    ∀ (l : List Char) (b : Bool),
      (collapseAux b (l ++ [z])).getLast? = some z := by
  intro l
  induction l with
  | nil =>
    intro b
    show (collapseAux b [z]).getLast? = some z
    rw [collapseAux_cons_nws b [] hz, collapseAux_nil]
    rfl
  | cons a t ih =>
    intro b
    show (collapseAux b (a :: (t ++ [z]))).getLast? = some z
    by_cases ha : isRustWhitespace a
    · cases b with
      | true => rw [collapseAux_cons_ws_true _ ha]; exact ih true
      | false =>
        rw [collapseAux_cons_ws_false _ ha]
        have hne : collapseAux true (t ++ [z]) ≠ [] := by
          intro hnil
          have h2 := ih true
          rw [hnil] at h2
          exact absurd h2 (by simp)
        rw [getLast?_cons_ne hne]
        exact ih true
    · rw [collapseAux_cons_nws b _ (by simpa using ha)]
      have hne : collapseAux false (t ++ [z]) ≠ [] := by
        intro hnil
        have h2 := ih false
        rw [hnil] at h2
        exact absurd h2 (by simp)
      rw [getLast?_cons_ne hne]
      exact ih false

/-- The first character surviving `trim` is not whitespace. -/
theorem headNotWS_trimList (l : List Char) : HeadNotWS (trimList l) := by
  intro c hc
  unfold trimList at hc
  set u := l.dropWhile isRustWhitespace with hu
  set D := u.reverse.dropWhile isRustWhitespace with hD
  rw [List.head?_reverse] at hc
  have hDne : D ≠ [] := by
    intro h0; rw [h0] at hc; exact absurd hc (by simp)
  obtain ⟨pre, hpre⟩ := List.dropWhile_suffix (l := u.reverse) isRustWhitespace
  have h1 : u.reverse.getLast? = some c := by
    rw [← hpre, List.getLast?_append_of_ne_nil pre hDne]
    exact hc
  rw [List.getLast?_reverse] at h1
  have hune : u ≠ [] := by
    intro h0; rw [h0] at h1; exact absurd h1 (by simp)
  have h2 : c = u.head hune := by
    have h3 := List.head?_eq_head hune
    rw [h1] at h3
    injection h3
  rw [h2]
  exact List.head_dropWhile_not isRustWhitespace l hune

/-- The last character surviving `trim` is not whitespace. -/
theorem lastNotWS_trimList (l : List Char) : LastNotWS (trimList l) := by
  intro c hc
  unfold trimList at hc
  set u := l.dropWhile isRustWhitespace with hu
  set D := u.reverse.dropWhile isRustWhitespace with hD
  rw [List.getLast?_reverse] at hc
  have hDne : D ≠ [] := by
    intro h0; rw [h0] at hc; exact absurd hc (by simp)
  have h2 : c = D.head hDne := by
    have h3 := List.head?_eq_head hDne
    rw [hc] at h3
    injection h3
  rw [h2]
  exact List.head_dropWhile_not isRustWhitespace u.reverse hDne

/-- Trimming only removes characters. -/
theorem mem_trimList {c : Char} {l : List Char} (h : c ∈ trimList l) :
    c ∈ l := by
  unfold trimList at h
  rw [List.mem_reverse] at h
  have h2 : c ∈ (l.dropWhile isRustWhitespace).reverse :=
    (List.dropWhile_suffix isRustWhitespace).subset h
  rw [List.mem_reverse] at h2
  exact (List.dropWhile_suffix isRustWhitespace).subset h2

/-- Trimming a list with non-whitespace ends is the identity. -/
theorem trimList_eq_self {l : List Char} (hh : HeadNotWS l)
    (hl : LastNotWS l) : trimList l = l := by
  unfold trimList
  have h1 : l.dropWhile isRustWhitespace = l := by
    cases l with
    | nil => rfl
    | cons a t =>
      rw [List.dropWhile_cons, if_neg (by simp [hh a rfl])]
  rw [h1]
  have h2 : l.reverse.dropWhile isRustWhitespace = l.reverse := by
    cases hr : l.reverse with
    | nil => rfl
    | cons a t =>
      have ha : isRustWhitespace a = false := by
        apply hl
        rw [← List.head?_reverse, hr]
        rfl
      rw [List.dropWhile_cons, if_neg (by simp [ha])]
  rw [h2, List.reverse_reverse]

/-- Collapsing is the identity on lists whose whitespace is single ASCII
spaces with no two adjacent. -/
theorem collapseAux_false_eq_self :
    ∀ (l : List Char), OnlySpaceWS l → NoAdjacentWS l →
      collapseAux false l = l := by
  intro l
  induction l with
  | nil => intro _ _; rfl
  | cons a t ih =>
    intro h1 h2
    by_cases ha : isRustWhitespace a
    · have haeq : a = ' ' := h1 a (List.mem_cons_self a t) ha
      rw [collapseAux_cons_ws_false t ha, ← haeq]
      congr 1
      cases t with
      | nil => rfl
      | cons b t2 =>
        have hb : isRustWhitespace b = false := by
          have hP := (List.chain'_cons'.mp h2).1 b (by simp)
          by_contra hbc
          exact hP ⟨ha, by simpa using hbc⟩
        have ht := ih
          (fun c hc hw => h1 c (List.mem_cons_of_mem a hc) hw)
          (List.chain'_cons'.mp h2).2
        rw [collapseAux_cons_nws false t2 hb] at ht
        rw [collapseAux_cons_nws true t2 hb]
        exact ht
    · rw [collapseAux_cons_nws false t (by simpa using ha)]
      congr 1
      exact ih (fun c hc hw => h1 c (List.mem_cons_of_mem a hc) hw)
        (List.chain'_cons'.mp h2).2

/-- The NBSP substitution is the identity once all whitespace is the ASCII
space (the regex collapse has already consumed every NBSP). -/
theorem map_nbsp_eq_self {l : List Char} (h : OnlySpaceWS l) :
    l.map (fun c => if c = nbspChar then ' ' else c) = l := by
  have heach : ∀ c ∈ l, (if c = nbspChar then ' ' else c) = c := by
    intro c hc
    by_cases hn : c = nbspChar
    · subst hn
      exact absurd (h _ hc (by decide)) (by decide)
    · rw [if_neg hn]
  rw [List.map_congr_left heach]
  exact List.map_id' l

/-- The ZWSP filter is the identity on ZWSP-free lists. -/
theorem filter_zwsp_eq_self {l : List Char} (h : zwspChar ∉ l) :
    l.filter (fun c => c ≠ zwspChar) = l := by
  apply List.filter_eq_self.mpr
  intro c hc
  simp only [ne_eq, decide_not, Bool.not_eq_true', decide_eq_false_iff_not]
  intro heq
  exact h (heq ▸ hc)

/-- On ZWSP-free input, `normalize_text` is just trim followed by
whitespace collapse. -/
theorem normalize_eq_collapse_trim {x : List Char} (hx : zwspChar ∉ x) :
    normalize_text x = collapseAux false (trimList x) := by
  unfold normalize_text collapseWhitespace
  rw [map_nbsp_eq_self (onlySpaceWS_collapseAux _ false)]
  rw [filter_zwsp_eq_self ?hz]
  case hz =>
    intro hmem
    rcases mem_collapseAux _ false hmem with h | h
    · exact absurd h (by decide)
    · exact hx (mem_trimList h)

/-- C7 counterexample: `normalize_text` is not idempotent on the concrete
input `"a ​ b"` — the ZWSP is stripped only after whitespace runs
were collapsed, leaving two adjacent spaces that a second normalization
collapses further. -/
theorem c7_zwsp_counterexample :
    normalize_text (normalize_text
        ("a ".toList ++ [zwspChar] ++ " b".toList))
      ≠ normalize_text ("a ".toList ++ [zwspChar] ++ " b".toList) := by
  decide

/-- C7 (amended): `normalize_text` is idempotent on every input containing
no zero-width space U+200B.  (With a ZWSP between whitespace, the late
ZWSP strip can leave adjacent spaces, per the counterexample.) -/
theorem c7_normalize_idempotent (x : List Char) (hx : zwspChar ∉ x) :
    normalize_text (normalize_text x) = normalize_text x := by
  have hy : normalize_text x = collapseAux false (trimList x) :=
    normalize_eq_collapse_trim hx
  have hOnly : OnlySpaceWS (normalize_text x) := by
    rw [hy]; exact onlySpaceWS_collapseAux _ false
  have hAdj : NoAdjacentWS (normalize_text x) := by
    rw [hy]; exact noAdjacentWS_collapseAux _ false
  have hzwspy : zwspChar ∉ normalize_text x := by
    rw [hy]
    intro hmem
    rcases mem_collapseAux _ false hmem with h | h
    · exact absurd h (by decide)
    · exact hx (mem_trimList h)
  have hHead : HeadNotWS (normalize_text x) := by
    rw [hy]
    cases ht : trimList x with
    | nil =>
      intro c hc
      rw [collapseAux_nil] at hc
      exact absurd hc (by simp)
    | cons a t =>
      have ha : isRustWhitespace a = false :=
        headNotWS_trimList x a (by rw [ht]; rfl)
      rw [collapseAux_cons_nws false t ha]
      intro c hc
      simp only [List.head?_cons, Option.some.injEq] at hc
      rw [← hc]
      exact ha
  have hLast : LastNotWS (normalize_text x) := by
    intro c hc
    by_cases hne : trimList x = []
    · rw [hy, hne, collapseAux_nil] at hc
      exact absurd hc (by simp)
    · have hz : isRustWhitespace ((trimList x).getLast hne) = false :=
        lastNotWS_trimList x _ (List.getLast?_eq_getLast _ hne)
      have heq : (trimList x).dropLast ++ [(trimList x).getLast hne]
          = trimList x := List.dropLast_append_getLast hne
      rw [hy, ← heq, last_collapseAux_concat hz _ false] at hc
      injection hc with hc
      rw [← hc]
      exact hz
  calc normalize_text (normalize_text x)
      = collapseAux false (trimList (normalize_text x)) :=
        normalize_eq_collapse_trim hzwspy
    _ = collapseAux false (normalize_text x) := by
        rw [trimList_eq_self hHead hLast]
    _ = normalize_text x := collapseAux_false_eq_self _ hOnly hAdj

/-- Witness for C7 at the ZWSP-free input `"a  b"` (two interior spaces). -/
theorem c7_normalize_idempotent_witness :
    zwspChar ∉ "a  b".toList ∧
    normalize_text (normalize_text "a  b".toList)
      = normalize_text "a  b".toList :=
  ⟨by decide, c7_normalize_idempotent "a  b".toList (by decide)⟩

/-! ## Claim C8: word-span invariants -/

/-- Unfolding lemma for the two-element case of the word segmenter. -/
theorem splitWordBounds_cons2 (c d : Char) (rest : List Char) :
    splitWordBounds (c :: d :: rest) =
      match splitWordBounds (d :: rest) with
      | [] => [[c]]
      | s :: ss =>
        if (isWordChar c && isWordChar d) || (c = ' ' && d = ' ') then
          (c :: s) :: ss
        else
          [c] :: s :: ss := rfl

/-- The word segments concatenate back to the input: segmentation is a
partition. -/
theorem flatten_splitWordBounds (l : List Char) :
    (splitWordBounds l).flatten = l := by
  induction l with
  | nil => rfl
  | cons c tail ih =>
    cases tail with
    | nil => rfl
    | cons d rest =>
      rw [splitWordBounds_cons2]
      cases hsp : splitWordBounds (d :: rest) with
      | nil =>
        rw [hsp] at ih
        simp at ih
      | cons s ss =>
        rw [hsp] at ih
        simp only [List.flatten_cons] at ih ⊢
        split
        · simp only [List.flatten_cons, List.cons_append, ih]
        · simp only [List.flatten_cons, List.cons_append,
            List.nil_append, ih]

/-- The word loop: every produced span starts at or after the running
offset, has positive extent, contains a non-whitespace character, and its
text is exactly the slice of the remaining input at its offsets; spans are
produced in ascending non-overlapping order. -/
theorem wordSpansAux_spec :
    ∀ (segs : List (List Char)) (off : Nat),
      (∀ w ∈ wordSpansAux off segs,
        off ≤ w.start ∧ w.start < w.stop ∧
        (∃ c ∈ w.text, isRustWhitespace c = false) ∧
        w.text = ((segs.flatten.drop (w.start - off)).take
          (w.stop - w.start))) ∧
      List.Chain' (fun a b => a.stop ≤ b.start) (wordSpansAux off segs) := by
  intro segs
  induction segs with
  | nil =>
    intro off
    exact ⟨fun w hw => absurd hw (by simp [wordSpansAux]), by
      simp [wordSpansAux]⟩
  | cons s rest ih =>
    intro off
    have hrest := ih (off + s.length)
    have hstart : ∀ w ∈ wordSpansAux (off + s.length) rest,
        off + s.length ≤ w.start := fun w hw => ((hrest.1 w hw).1)
    constructor
    · intro w hw
      unfold wordSpansAux at hw
      by_cases htr : (trimList s).isEmpty
      · rw [if_pos htr, List.nil_append] at hw
        obtain ⟨h1, h2, h3, h4⟩ := hrest.1 w hw
        refine ⟨by omega, h2, h3, ?_⟩
        rw [h4]
        have harith : w.start - off = s.length + (w.start - (off + s.length)) := by
          omega
        rw [List.flatten_cons, harith, List.drop_append]
      · rw [if_neg htr, List.singleton_append] at hw
        rcases List.mem_cons.mp hw with hw | hw
        · subst hw
          have hne : trimList s ≠ [] := by
            intro h0
            rw [h0] at htr
            exact htr rfl
          have hsne : s ≠ [] := by
            intro h0
            rw [h0] at hne
            exact hne rfl
          refine ⟨Nat.le_refl _, by
            show off < off + s.length
            have := List.length_pos.mpr hsne
            omega, ?_, ?_⟩
          · obtain ⟨a, ta⟩ := List.exists_cons_of_ne_nil hne
            obtain ⟨ta2, hta⟩ := ta
            refine ⟨a, mem_trimList (by rw [hta]; exact List.mem_cons_self a ta2), ?_⟩
            exact headNotWS_trimList s a (by rw [hta]; rfl)
          · show s = ((s :: rest).flatten.drop (off - off)).take
              (off + s.length - off)
            rw [Nat.sub_self, List.drop_zero, Nat.add_sub_cancel_left,
              List.flatten_cons, List.take_left]
        · obtain ⟨h1, h2, h3, h4⟩ := hrest.1 w hw
          refine ⟨by omega, h2, h3, ?_⟩
          rw [h4]
          have harith : w.start - off = s.length + (w.start - (off + s.length)) := by
            omega
          rw [List.flatten_cons, harith, List.drop_append]
    · unfold wordSpansAux
      by_cases htr : (trimList s).isEmpty
      · rw [if_pos htr, List.nil_append]
        exact hrest.2
      · rw [if_neg htr, List.singleton_append]
        refine List.chain'_cons'.mpr ⟨?_, hrest.2⟩
        intro y hy
        show off + s.length ≤ y.start
        exact hstart y (List.mem_of_mem_head? hy)

/-- C8: every word span of `precompute_text_highlights` has `start < stop`,
contains a non-whitespace character, and addresses the normalized text
exactly (its text is the scalar-value slice `[start, stop)` of the
normalized text); the spans are in ascending order with each span ending at
or before the next one starts. -/
theorem c8_word_span_invariants (text : List Char) :
    (∀ w ∈ (precompute_text_highlights text).words,
      w.start < w.stop ∧
      (∃ c ∈ w.text, isRustWhitespace c = false) ∧
      w.text = (((precompute_text_highlights text).normalized_text.drop
        w.start).take (w.stop - w.start))) ∧
    List.Chain' (fun a b => a.stop ≤ b.start)
      (precompute_text_highlights text).words := by
  unfold precompute_text_highlights
  by_cases hemp : (normalize_text text).isEmpty
  · rw [if_pos hemp]
    exact ⟨fun w hw => absurd hw (by simp), by simp⟩
  · rw [if_neg hemp]
    simp only []
    have hspec := wordSpansAux_spec (splitWordBounds (normalize_text text)) 0
    constructor
    · intro w hw
      obtain ⟨_, h2, h3, h4⟩ := hspec.1 w hw
      refine ⟨h2, h3, ?_⟩
      rw [h4, flatten_splitWordBounds, Nat.sub_zero]
    · exact hspec.2

/-- Witness for C8 at the input `"ab ."`: the first span is `"ab"` at
offsets `[0, 2)`, non-whitespace, matching the normalized text. -/
theorem c8_word_span_invariants_witness :
    (⟨0, 2, "ab".toList⟩ : WordSpan).start
        < (⟨0, 2, "ab".toList⟩ : WordSpan).stop ∧
    (∃ c ∈ (⟨0, 2, "ab".toList⟩ : WordSpan).text,
      isRustWhitespace c = false) ∧
    (⟨0, 2, "ab".toList⟩ : WordSpan).text
      = (((precompute_text_highlights "ab .".toList).normalized_text.drop
          (⟨0, 2, "ab".toList⟩ : WordSpan).start).take
        ((⟨0, 2, "ab".toList⟩ : WordSpan).stop
          - (⟨0, 2, "ab".toList⟩ : WordSpan).start)) :=
  (c8_word_span_invariants "ab .".toList).1 ⟨0, 2, "ab".toList⟩ (by decide)

/-! ## Claim C1: pool capacity and LRU eviction

The recency order of the model cache is validated against an
independently-defined clock: `lastUse evs k` is the (1-based) position of
the last event in the trace that touched `k` — a cache hit (`get`) or a
successful load-and-insert (`put`) — or `0` if none did.  The invariant
below shows the cache keys are always strictly sorted by that clock, so
the entry evicted at capacity (the back of the list) really is the
least-recently-accessed one. -/

/-- A hit: the entry moves to the front. -/
theorem poolStep_hit {D : Type} {c : LruCache D} {ev : PoolEvent D}
    {e : String × D}
    (hfind : c.entries.find? (fun x => x.1 = ev.path) = some e) :
    poolStep c ev =
      ⟨(ev.path, e.2) :: c.entries.filter (fun x => ¬(x.1 = ev.path)),
        c.cap⟩ := by
  unfold poolStep with_document
  simp only [LruCache.get, hfind]

/-- A miss with a failing load: the pool is unchanged. -/
theorem poolStep_miss_fail {D : Type} {c : LruCache D} {ev : PoolEvent D}
    (h : ev.path ∉ c.keys) (hl : ev.load = none) :
    poolStep c ev = c := by
  unfold poolStep with_document
  simp only [get_of_not_mem_keys h, hl]

/-- A miss with a succeeding load: the pool is exactly `put`. -/
theorem poolStep_miss_ok {D : Type} {c : LruCache D} {ev : PoolEvent D}
    {d : D} (h : ev.path ∉ c.keys) (hl : ev.load = some d) :
    poolStep c ev = c.put ev.path d := by
  unfold poolStep with_document
  simp only [get_of_not_mem_keys h, hl, get_put_fresh h]

/-- Unfolding: `lastUseAux` on the empty trace. -/
theorem lastUseAux_nil {D : Type} (c : LruCache D) (i : Nat) (k : String) :
    lastUseAux c i [] k = 0 := rfl

/-- Unfolding: `lastUseAux` on a cons. -/
theorem lastUseAux_cons {D : Type} (c : LruCache D) (i : Nat)
    (a : PoolEvent D) (rest : List (PoolEvent D)) (k : String) :
    lastUseAux c i (a :: rest) k =
      if lastUseAux (poolStep c a) (i + 1) rest k ≠ 0 then
        lastUseAux (poolStep c a) (i + 1) rest k
      else if a.path = k ∧ usesKey c a then i else 0 := rfl

/-- `lastUseAux` is zero or lands in `[i, i + length)`. -/
theorem lastUseAux_bounds {D : Type} :
    ∀ (l : List (PoolEvent D)) (c : LruCache D) (i : Nat) (k : String),
      lastUseAux c i l k = 0 ∨
        (i ≤ lastUseAux c i l k ∧ lastUseAux c i l k < i + l.length) := by
  intro l
  induction l with
  | nil => intro c i k; exact Or.inl (lastUseAux_nil c i k)
  | cons a rest ih =>
    intro c i k
    rw [lastUseAux_cons]
    rcases ih (poolStep c a) (i + 1) k with h0 | ⟨hlo, hhi⟩
    · rw [h0]
      rw [if_neg (by simp)]
      by_cases hc : a.path = k ∧ usesKey c a
      · rw [if_pos hc]
        right
        refine ⟨Nat.le_refl i, ?_⟩
        simp only [List.length_cons]
        omega
      · rw [if_neg hc]
        exact Or.inl rfl
    · have hne : lastUseAux (poolStep c a) (i + 1) rest k ≠ 0 := by omega
      rw [if_pos hne]
      right
      refine ⟨by omega, ?_⟩
      simp only [List.length_cons]
      omega

/-- Appending one event to the trace: the new event wins the clock for its
key if it touches it, otherwise nothing changes. -/
theorem lastUseAux_append {D : Type} :
    ∀ (l : List (PoolEvent D)) (c : LruCache D) (i : Nat)
      (ev : PoolEvent D) (k : String),
      lastUseAux c i (l ++ [ev]) k =
        if ev.path = k ∧ usesKey (l.foldl poolStep c) ev then i + l.length
        else lastUseAux c i l k := by
  intro l
  induction l with
  | nil =>
    intro c i ev k
    simp only [List.nil_append, List.foldl_nil, List.length_nil,
      Nat.add_zero]
    rw [lastUseAux_cons, lastUseAux_nil, lastUseAux_nil]
    simp
  | cons a rest ih =>
    intro c i ev k
    rw [List.cons_append, lastUseAux_cons, ih (poolStep c a) (i + 1) ev k,
      List.foldl_cons]
    by_cases hc : ev.path = k ∧ usesKey (rest.foldl poolStep (poolStep c a)) ev
    · simp only [if_pos hc]
      rw [if_pos (by omega : i + 1 + rest.length ≠ 0)]
      simp only [List.length_cons]
      omega
    · simp only [if_neg hc]
      rw [lastUseAux_cons c i a rest k]

/-- One trace step changes the pool by a fold step. -/
theorem runPool_append {D : Type} (evs : List (PoolEvent D))
    (ev : PoolEvent D) :
    runPool (evs ++ [ev]) = poolStep (runPool evs) ev := by
  unfold runPool
  rw [List.foldl_append]
  rfl

/-- The recency clock after one more event. -/
theorem lastUse_append {D : Type} (evs : List (PoolEvent D))
    (ev : PoolEvent D) (k : String) :
    lastUse (evs ++ [ev]) k =
      if ev.path = k ∧ usesKey (runPool evs) ev then 1 + evs.length
      else lastUse evs k := by
  unfold lastUse runPool
  rw [lastUseAux_append]

/-- The recency clock is zero or within the trace. -/
theorem lastUse_bounds {D : Type} (evs : List (PoolEvent D)) (k : String) :
    lastUse evs k = 0 ∨
      (1 ≤ lastUse evs k ∧ lastUse evs k ≤ evs.length) := by
  unfold lastUse
  rcases lastUseAux_bounds evs (⟨[], 4⟩ : LruCache D) 1 k with h | ⟨h1, h2⟩
  · exact Or.inl h
  · exact Or.inr ⟨h1, by omega⟩

/-- A hit refreshes the key's recency. -/
theorem usesKey_of_mem {D : Type} {c : LruCache D} {ev : PoolEvent D}
    (h : ev.path ∈ c.keys) : usesKey c ev = true := by
  unfold usesKey
  rw [Bool.or_eq_true]
  left
  rw [List.any_eq_true]
  obtain ⟨e, he, heq⟩ := List.mem_map.mp h
  exact ⟨e, he, by simp [heq]⟩

/-- A successful load refreshes the key's recency. -/
theorem usesKey_of_load {D : Type} {c : LruCache D} {ev : PoolEvent D}
    {d : D} (h : ev.load = some d) : usesKey c ev = true := by
  unfold usesKey
  rw [Bool.or_eq_true]
  right
  rw [h]
  rfl

/-- A failed load of an absent key touches nothing. -/
theorem usesKey_false {D : Type} {c : LruCache D} {ev : PoolEvent D}
    (h : ev.path ∉ c.keys) (hl : ev.load = none) :
    usesKey c ev = false := by
  unfold usesKey
  rw [hl]
  rw [Bool.or_eq_false_iff]
  refine ⟨?_, rfl⟩
  rw [List.any_eq_false]
  intro e he
  simp only [decide_eq_true_eq]
  intro heq
  exact h (heq ▸ List.mem_map_of_mem Prod.fst he)

/-- Filtering entries by key commutes with taking keys. -/
theorem keys_filter {D : Type} (l : List (String × D)) (p : String) :
    (l.filter (fun x => ¬(x.1 = p))).map Prod.fst
      = (l.map Prod.fst).filter (fun k => ¬(k = p)) := by
  rw [List.filter_map]
  rfl

/-- Keys after a fresh-key `put`. -/
theorem keys_put_fresh {D : Type} {c : LruCache D} {k : String} {v : D}
    (h : k ∉ c.keys) :
    (c.put k v).keys = k ::
      (if c.entries.length = c.cap then c.keys.dropLast else c.keys) := by
  rw [put_fresh_entries h]
  unfold LruCache.keys
  by_cases hlen : c.entries.length = c.cap
  · rw [if_pos hlen, if_pos hlen]
    simp only [List.map_cons]
    rw [List.map_dropLast]
  · rw [if_neg hlen, if_neg hlen]
    simp only [List.map_cons]

/-- The pool invariant: capacity 4 is fixed, the size never exceeds it, the
keys are distinct, every cached key has been accessed, and the keys are
strictly sorted by recency of access (most recent first). -/
def PoolGood {D : Type} (evs : List (PoolEvent D)) : Prop :=
  (runPool evs).cap = 4 ∧
  (runPool evs).entries.length ≤ 4 ∧
  (runPool evs).keys.Nodup ∧
  (∀ k ∈ (runPool evs).keys, 1 ≤ lastUse evs k) ∧
  (runPool evs).keys.Pairwise (fun a b => lastUse evs b < lastUse evs a)

/-- The invariant holds initially. -/
theorem poolGood_nil {D : Type} : PoolGood ([] : List (PoolEvent D)) := by
  refine ⟨rfl, by simp [runPool], by simp [runPool, LruCache.keys], ?_, ?_⟩
  · intro k hk
    exact absurd hk (by simp [runPool, LruCache.keys])
  · simp [runPool, LruCache.keys]

/-- The invariant is preserved by every `with_document` call. -/
theorem poolGood_append {D : Type} (evs : List (PoolEvent D))
    (ev : PoolEvent D) (ih : PoolGood evs) : PoolGood (evs ++ [ev]) := by
  obtain ⟨hcap, hlen, hnodup, hpos, hpair⟩ := ih
  by_cases hmem : ev.path ∈ (runPool evs).keys
  · -- hit: move to front
    have hfindSome : ((runPool evs).entries.find?
        (fun x => x.1 = ev.path)).isSome := by
      rw [List.find?_isSome]
      obtain ⟨e, he, heq⟩ := List.mem_map.mp hmem
      exact ⟨e, he, by simp [heq]⟩
    obtain ⟨e, hfind⟩ := Option.isSome_iff_exists.mp hfindSome
    have he1 : e.1 = ev.path := by
      have := List.find?_some hfind
      simpa using this
    have heMem : e ∈ (runPool evs).entries := List.mem_of_find?_eq_some hfind
    have huse : usesKey (runPool evs) ev = true := usesKey_of_mem hmem
    have hrun : runPool (evs ++ [ev]) =
        ⟨(ev.path, e.2) :: (runPool evs).entries.filter
          (fun x => ¬(x.1 = ev.path)), (runPool evs).cap⟩ := by
      rw [runPool_append, poolStep_hit hfind]
    have hkeys : (runPool (evs ++ [ev])).keys =
        ev.path :: (runPool evs).keys.filter (fun k => ¬(k = ev.path)) := by
      rw [hrun]
      show (ev.path, e.2).1 :: ((runPool evs).entries.filter
        (fun x => ¬(x.1 = ev.path))).map Prod.fst = _
      rw [keys_filter]
      rfl
    have hluP : lastUse (evs ++ [ev]) ev.path = 1 + evs.length := by
      rw [lastUse_append, if_pos ⟨rfl, huse⟩]
    have hluO : ∀ k, k ≠ ev.path → lastUse (evs ++ [ev]) k = lastUse evs k := by
      intro k hk
      rw [lastUse_append, if_neg (fun hcon => hk hcon.1.symm)]
    refine ⟨?_, ?_, ?_, ?_, ?_⟩
    · rw [hrun]; exact hcap
    · rw [hrun]
      show ((runPool evs).entries.filter
        (fun x => ¬(x.1 = ev.path))).length + 1 ≤ 4
      have hdec : ((runPool evs).entries.filter
          (fun x => ¬(x.1 = ev.path))).length < (runPool evs).entries.length := by
        apply List.length_filter_lt_length_iff_exists.mpr
        exact ⟨e, heMem, by simp [he1]⟩
      omega
    · rw [hkeys]
      refine List.Nodup.cons ?_ (hnodup.filter _)
      intro hinf
      have := (List.mem_filter.mp hinf).2
      simp at this
    · intro k hk
      rw [hkeys] at hk
      rcases List.mem_cons.mp hk with hk | hk
      · subst hk
        rw [hluP]
        omega
      · have hkne : k ≠ ev.path := by
          have := (List.mem_filter.mp hk).2
          simpa using this
        rw [hluO k hkne]
        exact hpos k (List.mem_of_mem_filter hk)
    · rw [hkeys]
      rw [List.pairwise_cons]
      constructor
      · intro b hb
        have hbne : b ≠ ev.path := by
          have := (List.mem_filter.mp hb).2
          simpa using this
        rw [hluP, hluO b hbne]
        rcases lastUse_bounds evs b with h0 | ⟨_, h2⟩
        · omega
        · omega
      · refine (hpair.filter _).imp_of_mem ?_
        intro a b ha hb hab
        have hane : a ≠ ev.path := by
          have := (List.mem_filter.mp ha).2
          simpa using this
        have hbne : b ≠ ev.path := by
          have := (List.mem_filter.mp hb).2
          simpa using this
        rw [hluO a hane, hluO b hbne]
        exact hab
  · cases hload : ev.load with
    | none =>
      -- miss with failing load: nothing changes
      have hrun : runPool (evs ++ [ev]) = runPool evs := by
        rw [runPool_append, poolStep_miss_fail hmem hload]
      have huse : usesKey (runPool evs) ev = false := usesKey_false hmem hload
      have hlu : ∀ k, lastUse (evs ++ [ev]) k = lastUse evs k := by
        intro k
        rw [lastUse_append, if_neg (fun hcon => by
          rw [huse] at hcon
          exact absurd hcon.2 (by simp))]
      refine ⟨?_, ?_, ?_, ?_, ?_⟩
      · rw [hrun]; exact hcap
      · rw [hrun]; exact hlen
      · rw [hrun]; exact hnodup
      · intro k hk
        rw [hrun] at hk
        rw [hlu k]
        exact hpos k hk
      · rw [hrun]
        refine hpair.imp_of_mem ?_
        intro a b _ _ hab
        rw [hlu a, hlu b]
        exact hab
    | some d =>
      -- miss with succeeding load: fresh insert (evicting at capacity)
      have hrun : runPool (evs ++ [ev]) = (runPool evs).put ev.path d := by
        rw [runPool_append, poolStep_miss_ok hmem hload]
      have huse : usesKey (runPool evs) ev = true := usesKey_of_load hload
      have hkeys : (runPool (evs ++ [ev])).keys = ev.path ::
          (if (runPool evs).entries.length = (runPool evs).cap then
            (runPool evs).keys.dropLast else (runPool evs).keys) := by
        rw [hrun, keys_put_fresh hmem]
      have hluP : lastUse (evs ++ [ev]) ev.path = 1 + evs.length := by
        rw [lastUse_append, if_pos ⟨rfl, huse⟩]
      have hluO : ∀ k, k ≠ ev.path →
          lastUse (evs ++ [ev]) k = lastUse evs k := by
        intro k hk
        rw [lastUse_append, if_neg (fun hcon => hk hcon.1.symm)]
      have hsubKeys : ∀ k, k ∈ (if (runPool evs).entries.length
            = (runPool evs).cap then (runPool evs).keys.dropLast
            else (runPool evs).keys) → k ∈ (runPool evs).keys := by
        intro k hk
        by_cases hl2 : (runPool evs).entries.length = (runPool evs).cap
        · rw [if_pos hl2] at hk
          exact (List.dropLast_sublist _).subset hk
        · rw [if_neg hl2] at hk
          exact hk
      refine ⟨?_, ?_, ?_, ?_, ?_⟩
      · rw [hrun, put_fresh_entries hmem]; exact hcap
      · rw [hrun, put_fresh_entries hmem]
        show ((if (runPool evs).entries.length = (runPool evs).cap then
          (runPool evs).entries.dropLast else (runPool evs).entries)).length
            + 1 ≤ 4
        by_cases hl2 : (runPool evs).entries.length = (runPool evs).cap
        · rw [if_pos hl2]
          rw [List.length_dropLast]
          omega
        · rw [if_neg hl2]
          rw [hcap] at hl2
          omega
      · rw [hkeys]
        refine List.Nodup.cons ?_ ?_
        · intro hin
          exact hmem (hsubKeys _ hin)
        · by_cases hl2 : (runPool evs).entries.length = (runPool evs).cap
          · rw [if_pos hl2]
            exact ((List.dropLast_sublist _).nodup hnodup)
          · rw [if_neg hl2]
            exact hnodup
      · intro k hk
        rw [hkeys] at hk
        rcases List.mem_cons.mp hk with hk | hk
        · subst hk
          rw [hluP]
          omega
        · have hin := hsubKeys _ hk
          have hkne : k ≠ ev.path := fun hcon => hmem (hcon ▸ hin)
          rw [hluO k hkne]
          exact hpos k hin
      · rw [hkeys, List.pairwise_cons]
        constructor
        · intro b hb
          have hin := hsubKeys _ hb
          have hbne : b ≠ ev.path := fun hcon => hmem (hcon ▸ hin)
          rw [hluP, hluO b hbne]
          rcases lastUse_bounds evs b with h0 | ⟨_, h2⟩
          · omega
          · omega
        · have hpairX : (if (runPool evs).entries.length = (runPool evs).cap
              then (runPool evs).keys.dropLast else
                (runPool evs).keys).Pairwise
              (fun a b => lastUse evs b < lastUse evs a) := by
            by_cases hl2 : (runPool evs).entries.length = (runPool evs).cap
            · rw [if_pos hl2]
              exact hpair.sublist (List.dropLast_sublist _)
            · rw [if_neg hl2]
              exact hpair
          refine hpairX.imp_of_mem ?_
          intro a b ha hb hab
          have hane : a ≠ ev.path := fun hcon => hmem (hcon ▸ hsubKeys _ ha)
          have hbne : b ≠ ev.path := fun hcon => hmem (hcon ▸ hsubKeys _ hb)
          rw [hluO a hane, hluO b hbne]
          exact hab

/-- The pool invariant holds after every trace of `with_document` calls. -/
theorem poolGood_all {D : Type} (evs : List (PoolEvent D)) : PoolGood evs := by
  induction evs using List.reverseRecOn with
  | nil => exact poolGood_nil
  | append_singleton t e ih => exact poolGood_append t e ih

/-- C1: for every sequence of `with_document` calls the pool never holds
more than 4 handles; and when an insertion occurs while the pool is full
(fresh identifier, successful load, 4 entries) the evicted key is the one
whose last access — counting both `get` hits and successful `put`
insertions — is strictly older than that of every other cached key. -/
theorem c1_pool_capacity_lru {D : Type} (evs : List (PoolEvent D)) :
    (runPool evs).entries.length ≤ 4 ∧
    ∀ (ev : PoolEvent D) (d : D), ev.load = some d →
      ev.path ∉ (runPool evs).keys →
      (runPool evs).entries.length = 4 →
      ∃ k, k ∈ (runPool evs).keys ∧
        k ∉ (runPool (evs ++ [ev])).keys ∧
        (runPool (evs ++ [ev])).keys
          = ev.path :: (runPool evs).keys.dropLast ∧
        ∀ k2 ∈ (runPool evs).keys, k2 ≠ k →
          lastUse evs k < lastUse evs k2 := by
  obtain ⟨hcap, hlen, hnodup, hpos, hpair⟩ := poolGood_all evs
  refine ⟨hlen, ?_⟩
  intro ev d hload hmem hfull
  have hkeys : (runPool (evs ++ [ev])).keys
      = ev.path :: (runPool evs).keys.dropLast := by
    rw [runPool_append, poolStep_miss_ok hmem hload, keys_put_fresh hmem,
      if_pos (by rw [hcap]; exact hfull)]
  have hkne : (runPool evs).keys ≠ [] := by
    intro h0
    have h1 : (runPool evs).entries.length = 0 := by
      unfold LruCache.keys at h0
      simpa using congrArg List.length h0
    omega
  have hksplit : (runPool evs).keys.dropLast
      ++ [(runPool evs).keys.getLast hkne] = (runPool evs).keys :=
    List.dropLast_append_getLast hkne
  refine ⟨(runPool evs).keys.getLast hkne, List.getLast_mem hkne, ?_,
    hkeys, ?_⟩
  · rw [hkeys]
    intro hin
    rcases List.mem_cons.mp hin with h | h
    · exact hmem (h ▸ List.getLast_mem hkne)
    · have hnd := hnodup
      rw [← hksplit] at hnd
      exact (List.disjoint_of_nodup_append hnd) h (by simp)
  · intro k2 hk2 hk2ne
    have hk2' : k2 ∈ (runPool evs).keys.dropLast := by
      rw [← hksplit] at hk2
      rcases List.mem_append.mp hk2 with h | h
      · exact h
      · exact absurd (by simpa using h) hk2ne
    have hp := hpair
    rw [← hksplit] at hp
    exact (List.pairwise_append.mp hp).2.2 k2 hk2'
      ((runPool evs).keys.getLast hkne) (by simp)

/-- A trace of four successful loads of distinct identifiers. -/
def lruTrace4 : List (PoolEvent Unit) :=
  [⟨"a", some ()⟩, ⟨"b", some ()⟩, ⟨"c", some ()⟩, ⟨"d", some ()⟩]

/-- Witness for C1: loading a fifth distinct document into the full pool
evicts the least-recently-used identifier. -/
theorem c1_pool_capacity_lru_witness :
    ∃ k, k ∈ (runPool lruTrace4).keys ∧
      k ∉ (runPool (lruTrace4 ++ [⟨"e", some ()⟩])).keys ∧
      (runPool (lruTrace4 ++ [⟨"e", some ()⟩])).keys
        = (⟨"e", some ()⟩ : PoolEvent Unit).path
          :: (runPool lruTrace4).keys.dropLast ∧
      ∀ k2 ∈ (runPool lruTrace4).keys,
        k2 ≠ k → lastUse lruTrace4 k < lastUse lruTrace4 k2 :=
  (c1_pool_capacity_lru lruTrace4).2 ⟨"e", some ()⟩ () rfl
    (by decide) (by decide)

end Ferrous
